import Mathlib

/-!
# Verification of the CommitPulse analytics engine

Shallow embedding of `commitpulse/analyzer.py` (`GitAnalyzer`).  Python
strings are modelled as `List Char` (`PyStr`); `collections.Counter`
objects as association lists `List (κ × ℕ)` accumulated in insertion
order; machine reals appearing in the hour estimator as `ℚ`; fallible
operations as `Option`/`Except`.  External collaborators (the `git`
process, `datetime.fromisoformat`, the network, `hashlib.md5`, the file
system) are parameters of the definitions that consume them, exactly at
the boundary where `analyzer.py` calls them.
-/

namespace CommitPulse

/-- Python strings, modelled as lists of characters. -/
abbrev PyStr := List Char

/-- The whitespace characters stripped by Python's `str.strip()`. -/
def pyIsSpace (c : Char) : Bool :=
  c = ' ' || c = '\t' || c = '\n' || c = '\r' || c = '\x0b' || c = '\x0c'

/-- Python `str.strip()`: drop whitespace from both ends. -/
def pyStrip (s : PyStr) : PyStr :=
  ((s.dropWhile pyIsSpace).reverse.dropWhile pyIsSpace).reverse

/-- Python `str.split(sep)` for a single-character separator `sep`:
splits on every occurrence, keeping empty pieces (`"a,,b".split(',') ==
['a','','b']`, `"".split(',') == ['']`). -/
def pySplit (sep : Char) : PyStr → List PyStr
  | [] => [[]]
  | c :: t =>
    match pySplit sep t with
    | [] => [[c]]
    | h :: hs => if c = sep then [] :: h :: hs else (c :: h) :: hs

/-- Python `pat in s` substring containment. -/
def pyContains (s pat : PyStr) : Bool :=
  s.tails.any fun t => pat.isPrefixOf t

/-- Python `str.lower()` (ASCII range, which covers every string the
analyzer lowercases: emails, file names, extensions). -/
def pyLower (s : PyStr) : PyStr :=
  s.map Char.toLower

/-- Value of a nonempty all-digit string, `none` otherwise (the digit
value `c.toNat - 48` is taken in `ℕ`, which agrees with the integer
difference on every digit character). -/
def digitsVal (l : PyStr) : Option ℤ :=
  if l = [] then none
  else
    l.foldl
      (fun acc c =>
        match acc with
        | none => none
        | some v => if c.isDigit then some (10 * v + ((c.toNat - 48 : ℕ) : ℤ)) else none)
      (some 0)

/-- Python `int(s)` on decimal numerals: strip whitespace, optional
sign, at least one digit; `none` models the `ValueError` raised on any
other input. -/
def pyInt (s : PyStr) : Option ℤ :=
  match pyStrip s with
  | '-' :: ds => (digitsVal ds).map (fun n => -n)
  | '+' :: ds => digitsVal ds
  | ds => digitsVal ds

/-! ### `collections.Counter` as an association list

A `Counter` is a mapping accumulated by `counter[k] += n`; we model it
as an association list in key-insertion order, which is exactly the
iteration order Python dictionaries guarantee. -/

/-- `counter[k] += n` on an association-list counter. -/
def bumpBy [DecidableEq κ] (k : κ) (n : ℕ) : List (κ × ℕ) → List (κ × ℕ)
  | [] => [(k, n)]
  | (k', c) :: t => if k' = k then (k', c + n) :: t else (k', c) :: bumpBy k n t

/-- `counter[k] += 1`. -/
def bump [DecidableEq κ] (k : κ) (m : List (κ × ℕ)) : List (κ × ℕ) :=
  bumpBy k 1 m

/-- `sum(counter.values())`. -/
def sumVals (m : List (κ × ℕ)) : ℕ :=
  m.foldr (fun p a => p.2 + a) 0

theorem sumVals_bumpBy [DecidableEq κ] (k : κ) (n : ℕ) (m : List (κ × ℕ)) :
    sumVals (bumpBy k n m) = sumVals m + n := by
  induction m with
  | nil => simp [bumpBy, sumVals]
  | cons p t ih =>
    obtain ⟨k', c⟩ := p
    by_cases h : k' = k <;> simp [bumpBy, h, sumVals, ih] at * <;> omega

theorem sumVals_bump [DecidableEq κ] (k : κ) (m : List (κ × ℕ)) :
    sumVals (bump k m) = sumVals m + 1 :=
  sumVals_bumpBy k 1 m

/-! ### Timestamp aggregation (`get_stats`, lines 68–95)

The raw input is the text returned by `git log --all --format=%aI`: one
ISO-8601 timestamp per line.  `datetime.fromisoformat` is an external
parser; we model it as a parameter `fromiso : PyStr → Option PyDT`
(`none` = the `ValueError` the loop catches).  A parsed
`datetime` exposes the three projections the analyzer uses:
`dt.date().isoformat()`, `dt.hour` (always in `0..23` for a valid
`datetime`, hence `Fin 24`), and the instant on the time line used for
sorting and for `total_seconds()` differences (a `ℚ` of seconds). -/

/-- A parsed `datetime` value, restricted to the projections
`GitAnalyzer.get_stats` reads. -/
structure PyDT where
  dateStr : PyStr
  hour : Fin 24
  ts : ℚ

/-- `commit_dates_raw.split('\n')` (the raw git output is newline
separated). -/
def pyLines (raw : PyStr) : List PyStr :=
  pySplit '\n' raw

/-- One iteration of the heatmap loop (lines 74–85): skip blank lines,
skip lines `fromisoformat` rejects, otherwise increment the day map and
the hour map. -/
def aggStep (fromiso : PyStr → Option PyDT)
    (m : List (PyStr × ℕ) × List (Fin 24 × ℕ)) (d : PyStr) :
    List (PyStr × ℕ) × List (Fin 24 × ℕ) :=
  if d = [] then m
  else
    match fromiso d with
    | none => m
    | some dt => (bump dt.dateStr m.1, bump dt.hour m.2)

/-- `heatmap_data` and `hourly_distribution` after the loop of lines
70–85.  `if commit_dates_raw:` guards the loop; an empty (or absent)
raw result leaves both counters empty. -/
def aggregate (fromiso : PyStr → Option PyDT) (raw : PyStr) :
    List (PyStr × ℕ) × List (Fin 24 × ℕ) :=
  if raw = [] then ([], [])
  else (pyLines raw).foldl (aggStep fromiso) ([], [])

/-- `total_commits = sum(heatmap_data.values())` (line 87). -/
def total_commits (fromiso : PyStr → Option PyDT) (raw : PyStr) : ℕ :=
  sumVals (aggregate fromiso raw).1

/-! ### Activity segments (`get_stats`, lines 231–241) -/

/-- One iteration of the segment loop: the `if/elif/elif/else` chain of
lines 238–241, applied to one `(hour, count)` item of
`hourly_distribution`.  The four components are the counts of
`"Early Bird"`, `"Morning"`, `"Afternoon"`, `"Late Night"`. -/
def segStep (s : ℕ × ℕ × ℕ × ℕ) (p : Fin 24 × ℕ) : ℕ × ℕ × ℕ × ℕ :=
  let h : ℕ := p.1
  let c : ℕ := p.2
  if 0 ≤ h ∧ h < 6 then (s.1 + c, s.2.1, s.2.2.1, s.2.2.2)
  else if 6 ≤ h ∧ h < 12 then (s.1, s.2.1 + c, s.2.2.1, s.2.2.2)
  else if 12 ≤ h ∧ h < 18 then (s.1, s.2.1, s.2.2.1 + c, s.2.2.2)
  else (s.1, s.2.1, s.2.2.1, s.2.2.2 + c)

/-- `activity_segments` after the loop of lines 237–241. -/
def activity_segments (hd : List (Fin 24 × ℕ)) : ℕ × ℕ × ℕ × ℕ :=
  hd.foldl segStep (0, 0, 0, 0)

/-! ### Engineering-hours estimator (`get_stats`, lines 200–224, 249) -/

/-- Per-pair contribution of the session-clustering loop (lines
218–223): `diff` is the gap in hours (`total_seconds() / 3600`); a gap
under two hours counts as continuous work, anything longer as a fresh
session-startup buffer of half an hour. -/
def gapContribution (d : ℚ) : ℚ :=
  if d / 3600 < 2 then d / 3600 else 1 / 2

/-- The loop of lines 218–223 over consecutive pairs, `prev` being
`all_timestamps[i-1]`. -/
def gapFold (prev : ℚ) : List ℚ → ℚ
  | [] => 0
  | b :: t => gapContribution (b - prev) + gapFold b t

/-- `estimated_hours` before rounding: `0` stays when the timestamp
list is empty; otherwise the session-start buffer of lines 215–216 plus
the pairwise loop. -/
def rawEstimate : List ℚ → ℚ
  | [] => 0
  | a :: t => 1 / 2 + gapFold a t

/-- Python's `round` on an exact value: round half to even
(banker's rounding) to the nearest integer. -/
def pyRoundHE (x : ℚ) : ℤ :=
  if Int.fract x = 1 / 2 then (if ⌊x⌋ % 2 = 0 then ⌊x⌋ else ⌊x⌋ + 1)
  else ⌊x + 1 / 2⌋

/-- `round(x, 1)` (line 249): round half to even at one decimal. -/
def pyRound1 (x : ℚ) : ℚ :=
  (pyRoundHE (10 * x) : ℚ) / 10

/-- `all_timestamps.sort()` — modelled by insertion sort, which agrees
with Python's stable sort (only the instants, which are totally
ordered, are compared, so any correct sort yields the same list). -/
def sortTS (l : List ℚ) : List ℚ :=
  l.insertionSort (· ≤ ·)

/-- The parse loop of lines 205–210: for each nonblank line keep the
timestamp value when `fromisoformat` succeeds; the bare `except` skips
failures. -/
def parseTimestamps (fromiso : PyStr → Option PyDT) (raw : PyStr) : List ℚ :=
  if raw = [] then []
  else (pyLines raw).filterMap fun d =>
    if d = [] then none else (fromiso d).map (·.ts)

/-- The estimator on an (unsorted) list of instants: sort, cluster,
round — with the final `round(estimated_hours, 1)` of line 249. -/
def estimateOfList (l : List ℚ) : ℚ :=
  pyRound1 (rawEstimate (sortTS l))

/-- `estimated_hours` as assembled into the result record. -/
def estimated_hours (fromiso : PyStr → Option PyDT) (raw : PyStr) : ℚ :=
  estimateOfList (parseTimestamps fromiso raw)

/-- The spec's description of the pairwise loop: the sum, over each
consecutive pair of the sorted sequence, of the gap itself when under
two hours and of the half-hour startup cost otherwise. -/
def specGapSum : List ℚ → ℚ
  | [] => 0
  | [_] => 0
  | a :: b :: t => gapContribution (b - a) + specGapSum (b :: t)

/-- A concrete `fromisoformat` used to instantiate the universally
quantified theorems: parses the single line `"a"` to an instant. -/
def fromisoTest : PyStr → Option PyDT := fun d =>
  if d = "a".toList then some ⟨"2024-01-01".toList, ⟨3, by omega⟩, 7200⟩ else none

/-! ### Lemmas: aggregation sums -/

theorem foldl_aggStep_fst (f : PyStr → Option PyDT) :
    ∀ (ls : List PyStr) (m : List (PyStr × ℕ) × List (Fin 24 × ℕ)),
      sumVals (ls.foldl (aggStep f) m).1 =
        sumVals m.1 + (ls.filterMap fun d =>
          if d = [] then none else (f d).map (·.ts)).length := by
  intro ls
  induction ls with
  | nil => simp
  | cons d t ih =>
    intro m
    by_cases hd : d = []
    · simp [hd, aggStep, ih]
    · cases hf : f d with
      | none => simp [List.foldl, aggStep, hd, hf, ih]
      | some dt => simp [List.foldl, aggStep, hd, hf, ih, sumVals_bump]; omega

theorem foldl_aggStep_snd (f : PyStr → Option PyDT) :
    ∀ (ls : List PyStr) (m : List (PyStr × ℕ) × List (Fin 24 × ℕ)),
      sumVals (ls.foldl (aggStep f) m).2 =
        sumVals m.2 + (ls.filterMap fun d =>
          if d = [] then none else (f d).map (·.ts)).length := by
  intro ls
  induction ls with
  | nil => simp
  | cons d t ih =>
    intro m
    by_cases hd : d = []
    · simp [hd, aggStep, ih]
    · cases hf : f d with
      | none => simp [List.foldl, aggStep, hd, hf, ih]
      | some dt => simp [List.foldl, aggStep, hd, hf, ih, sumVals_bump]; omega

/-- Both activity counters count exactly the parseable nonblank lines. -/
theorem aggregate_sums (f : PyStr → Option PyDT) (raw : PyStr) :
    sumVals (aggregate f raw).1 = (parseTimestamps f raw).length ∧
    sumVals (aggregate f raw).2 = (parseTimestamps f raw).length := by
  unfold aggregate parseTimestamps
  by_cases h : raw = []
  · simp [h, sumVals]
  · simp only [h, if_neg]
    refine ⟨?_, ?_⟩
    · simpa [sumVals] using foldl_aggStep_fst f (pyLines raw) ([], [])
    · simpa [sumVals] using foldl_aggStep_snd f (pyLines raw) ([], [])

/-! ### Lemmas: segment sums -/

theorem foldl_segStep (hd : List (Fin 24 × ℕ)) :
    ∀ s : ℕ × ℕ × ℕ × ℕ,
      (hd.foldl segStep s).1 + (hd.foldl segStep s).2.1 +
          (hd.foldl segStep s).2.2.1 + (hd.foldl segStep s).2.2.2 =
        s.1 + s.2.1 + s.2.2.1 + s.2.2.2 + sumVals hd := by
  induction hd with
  | nil => intro s; simp [sumVals]
  | cons p t ih =>
    intro s
    have step : (segStep s p).1 + (segStep s p).2.1 + (segStep s p).2.2.1 +
        (segStep s p).2.2.2 = s.1 + s.2.1 + s.2.2.1 + s.2.2.2 + p.2 := by
      dsimp only [segStep]
      split
      · dsimp only; omega
      · split
        · dsimp only; omega
        · split <;> dsimp only <;> omega
    simp only [List.foldl_cons, ih, step, sumVals, List.foldr]
    omega

/-! ### Lemmas: the estimator's closed form -/

theorem gapFold_eq_specGapSum : ∀ (t : List ℚ) (a : ℚ),
    gapFold a t = specGapSum (a :: t) := by
  intro t
  induction t with
  | nil => intro a; simp [gapFold, specGapSum]
  | cons b t' ih =>
    intro a
    rw [gapFold, ih b, specGapSum]

theorem rawEstimate_cons (a : ℚ) (t : List ℚ) :
    rawEstimate (a :: t) = 1 / 2 + specGapSum (a :: t) := by
  rw [rawEstimate, gapFold_eq_specGapSum]

theorem pyRound1_zero : pyRound1 0 = 0 := by
  norm_num [pyRound1, pyRoundHE, Int.fract]

theorem pyRound1_half : pyRound1 (1 / 2) = 1 / 2 := by
  have h1 : (10 : ℚ) * (1 / 2) = 5 := by norm_num
  have h2 : Int.fract (5 : ℚ) = 0 := by norm_num [Int.fract]
  have h3 : ⌊(5 : ℚ) + 1 / 2⌋ = 5 := by
    rw [Int.floor_eq_iff]
    constructor <;> norm_num
  simp [pyRound1, pyRoundHE, h1, h2, h3]
  norm_num

/-! ### Claim theorems: C1, C10, C2 -/

/-- C1: for every timestamp input (and every behaviour of the external
ISO parser), `total_commits` equals the sum of the daily activity map's
values and the sum of the hourly activity map's values; both maps count
each parseable nonblank line exactly once, and `total_commits` is by
definition the sum over the daily map. -/
theorem total_commits_eq_daily_eq_hourly (f : PyStr → Option PyDT) (raw : PyStr) :
    total_commits f raw = sumVals (aggregate f raw).1 ∧
    sumVals (aggregate f raw).1 = sumVals (aggregate f raw).2 ∧
    sumVals (aggregate f raw).1 = (parseTimestamps f raw).length := by
  obtain ⟨h1, h2⟩ := aggregate_sums f raw
  exact ⟨rfl, h1.trans h2.symm, h1⟩

/-- C10: the four activity-segment counts of the assembled result sum
to `total_commits`, and each of the 24 hour keys satisfies exactly one
of the four segment conditions of the `if/elif/elif/else` chain, so no
commit is dropped or double counted. -/
theorem activity_segments_sum_to_total (f : PyStr → Option PyDT) (raw : PyStr) :
    (activity_segments (aggregate f raw).2).1 +
        (activity_segments (aggregate f raw).2).2.1 +
        (activity_segments (aggregate f raw).2).2.2.1 +
        (activity_segments (aggregate f raw).2).2.2.2 =
      total_commits f raw ∧
    ∀ h : Fin 24,
      ((if 0 ≤ (h : ℕ) ∧ (h : ℕ) < 6 then 1 else 0) +
        (if 6 ≤ (h : ℕ) ∧ (h : ℕ) < 12 then 1 else 0) +
        (if 12 ≤ (h : ℕ) ∧ (h : ℕ) < 18 then 1 else 0) +
        (if 18 ≤ (h : ℕ) ∧ (h : ℕ) < 24 then 1 else 0) : ℕ) = 1 := by
  constructor
  · have := foldl_segStep (aggregate f raw).2 (0, 0, 0, 0)
    obtain ⟨h1, h2⟩ := aggregate_sums f raw
    unfold activity_segments
    rw [this]
    simp [total_commits, h1, h2]
  · decide

/-- C2: the engineering-hours estimate is `0` when no timestamp
parses; otherwise it is the half-hour session-startup cost plus, for
each consecutive pair of the chronologically sorted timestamps, the gap
in hours when under two hours and another half hour otherwise, the
whole rounded to one decimal; a single timestamp yields `0.5`. -/
theorem estimated_hours_closed_form (f : PyStr → Option PyDT) (raw : PyStr) :
    (parseTimestamps f raw = [] → estimated_hours f raw = 0) ∧
    (parseTimestamps f raw ≠ [] →
      estimated_hours f raw =
        pyRound1 (1 / 2 + specGapSum (sortTS (parseTimestamps f raw)))) ∧
    (∀ t : ℚ, parseTimestamps f raw = [t] → estimated_hours f raw = 1 / 2) := by
  refine ⟨?_, ?_, ?_⟩
  · intro h
    simp [estimated_hours, estimateOfList, h, sortTS, rawEstimate, pyRound1_zero,
      List.insertionSort]
  · intro h
    have hne : sortTS (parseTimestamps f raw) ≠ [] := by
      intro hs
      have := (List.perm_insertionSort (· ≤ ·) (parseTimestamps f raw)).length_eq
      rw [sortTS] at hs
      rw [hs] at this
      exact h (List.length_eq_zero.mp this.symm)
    unfold estimated_hours estimateOfList
    cases hs : sortTS (parseTimestamps f raw) with
    | nil => exact absurd hs hne
    | cons a t => rw [rawEstimate_cons]
  · intro t ht
    have hs : sortTS (parseTimestamps f raw) = [t] := by
      rw [ht]; rfl
    unfold estimated_hours estimateOfList
    rw [hs]
    show pyRound1 (1 / 2 + gapFold t []) = 1 / 2
    rw [show gapFold t [] = 0 from rfl, add_zero]
    exact pyRound1_half

/-- Witness for C2 at concrete inputs: the empty input, and an input
with exactly one parseable timestamp line. -/
theorem estimated_hours_closed_form_witness :
    estimated_hours fromisoTest [] = 0 ∧
    estimated_hours fromisoTest "a".toList = 1 / 2 ∧
    estimated_hours fromisoTest "a".toList =
      pyRound1 (1 / 2 + specGapSum (sortTS (parseTimestamps fromisoTest "a".toList))) :=
  ⟨(estimated_hours_closed_form fromisoTest []).1 (by decide),
   (estimated_hours_closed_form fromisoTest "a".toList).2.2 7200 (by decide),
   (estimated_hours_closed_form fromisoTest "a".toList).2.1 (by decide)⟩

/-! ### Lemmas: monotonicity of the estimator (C4) -/

theorem gapContribution_nonneg {d : ℚ} (hd : 0 ≤ d) : 0 ≤ gapContribution d := by
  unfold gapContribution
  split
  · positivity
  · norm_num

theorem gapContribution_subadd {d₁ d₂ : ℚ} (h₁ : 0 ≤ d₁) (h₂ : 0 ≤ d₂) :
    gapContribution (d₁ + d₂) ≤ gapContribution d₁ + gapContribution d₂ := by
  have e : (d₁ + d₂) / 3600 = d₁ / 3600 + d₂ / 3600 := by ring
  have p₁ : (0 : ℚ) ≤ d₁ / 3600 := by positivity
  have p₂ : (0 : ℚ) ≤ d₂ / 3600 := by positivity
  unfold gapContribution
  split
  · rename_i hs
    rw [e] at hs
    split
    · split
      · rw [e]
      · exfalso; rename_i h2s; rw [not_lt] at h2s; linarith
    · exfalso; rename_i h1s; rw [not_lt] at h1s; linarith
  · rename_i hs
    rw [e, not_lt] at hs
    split
    · split
      · linarith
      · linarith
    · split
      · linarith
      · norm_num

theorem gapFold_orderedInsert (x : ℚ) :
    ∀ (t : List ℚ) (prev : ℚ), prev ≤ x → List.Sorted (· ≤ ·) (prev :: t) →
      gapFold prev t ≤ gapFold prev (List.orderedInsert (· ≤ ·) x t) := by
  intro t
  induction t with
  | nil =>
    intro prev hpx _
    show (0 : ℚ) ≤ gapContribution (x - prev) + 0
    have := gapContribution_nonneg (show (0 : ℚ) ≤ x - prev by linarith)
    linarith
  | cons b t' ih =>
    intro prev hpx hs
    have hpb : prev ≤ b :=
      List.rel_of_sorted_cons hs b (List.mem_cons_self b t')
    rw [List.orderedInsert]
    split
    · rename_i hxb
      show gapFold prev (b :: t') ≤ gapFold prev (x :: b :: t')
      simp only [gapFold]
      have hsub := gapContribution_subadd
        (show (0 : ℚ) ≤ x - prev by linarith) (show (0 : ℚ) ≤ b - x by linarith)
      have heq : x - prev + (b - x) = b - prev := by ring
      rw [heq] at hsub
      linarith
    · rename_i hxb
      simp only [gapFold]
      have hbx : b ≤ x := le_of_not_le hxb
      have := ih b hbx hs.of_cons
      linarith

theorem rawEstimate_orderedInsert (x : ℚ) (m : List ℚ)
    (hm : List.Sorted (· ≤ ·) m) :
    rawEstimate m ≤ rawEstimate (List.orderedInsert (· ≤ ·) x m) := by
  cases m with
  | nil =>
    show (0 : ℚ) ≤ 1 / 2 + gapFold x []
    show (0 : ℚ) ≤ 1 / 2 + 0
    norm_num
  | cons a t =>
    rw [List.orderedInsert]
    split
    · rename_i hxa
      show rawEstimate (a :: t) ≤ rawEstimate (x :: a :: t)
      simp only [rawEstimate, gapFold]
      have := gapContribution_nonneg (show (0 : ℚ) ≤ a - x by linarith)
      linarith
    · rename_i hxa
      simp only [rawEstimate]
      have hax : a ≤ x := le_of_not_le hxa
      have := gapFold_orderedInsert x t a hax hm
      linarith

theorem pyRoundHE_le_floor_add_one (x : ℚ) : pyRoundHE x ≤ ⌊x⌋ + 1 := by
  unfold pyRoundHE
  split
  · split <;> omega
  · have h : ⌊x + 1 / 2⌋ < ⌊x⌋ + 2 := by
      rw [Int.floor_lt]
      push_cast
      linarith [Int.lt_floor_add_one x]
    omega

theorem pyRoundHE_ge_floor (x : ℚ) : ⌊x⌋ ≤ pyRoundHE x := by
  unfold pyRoundHE
  split
  · split <;> omega
  · exact Int.floor_mono (by linarith)

/-- Round-half-to-even is monotone. -/
theorem pyRoundHE_mono {x y : ℚ} (h : x ≤ y) : pyRoundHE x ≤ pyRoundHE y := by
  rcases lt_or_le ⌊x⌋ ⌊y⌋ with hf | hf
  · calc pyRoundHE x ≤ ⌊x⌋ + 1 := pyRoundHE_le_floor_add_one x
      _ ≤ ⌊y⌋ := by omega
      _ ≤ pyRoundHE y := pyRoundHE_ge_floor y
  · have hfe : ⌊x⌋ = ⌊y⌋ := le_antisymm (Int.floor_mono h) hf
    have hcast : (⌊x⌋ : ℚ) = (⌊y⌋ : ℚ) := by exact_mod_cast hfe
    have hfx : Int.fract x = x - ⌊x⌋ := (Int.self_sub_floor x).symm
    have hfy : Int.fract y = y - ⌊y⌋ := (Int.self_sub_floor y).symm
    have hle : Int.fract x ≤ Int.fract y := by rw [hfx, hfy]; linarith
    by_cases hx : Int.fract x = 1 / 2 <;> by_cases hy : Int.fract y = 1 / 2
    · have hxy : x = y := by
        rw [hfx] at hx; rw [hfy] at hy; linarith
      rw [hxy]
    · have hfygt : 1 / 2 < Int.fract y :=
        lt_of_le_of_ne (hx ▸ hle) (Ne.symm hy)
      have h1 : pyRoundHE y = ⌊y + 1 / 2⌋ := by unfold pyRoundHE; rw [if_neg hy]
      have h2 : ⌊y⌋ + 1 ≤ ⌊y + 1 / 2⌋ := by
        rw [Int.le_floor]
        push_cast
        rw [hfy] at hfygt
        linarith
      calc pyRoundHE x ≤ ⌊x⌋ + 1 := pyRoundHE_le_floor_add_one x
        _ = ⌊y⌋ + 1 := by omega
        _ ≤ ⌊y + 1 / 2⌋ := h2
        _ = pyRoundHE y := h1.symm
    · have hfxlt : Int.fract x < 1 / 2 :=
        lt_of_le_of_ne (hle.trans_eq hy) hx
      have h1 : pyRoundHE x = ⌊x + 1 / 2⌋ := by unfold pyRoundHE; rw [if_neg hx]
      have h2 : ⌊x + 1 / 2⌋ ≤ ⌊x⌋ := by
        have hlt : ⌊x + 1 / 2⌋ < ⌊x⌋ + 1 := by
          rw [Int.floor_lt]
          push_cast
          rw [hfx] at hfxlt
          linarith
        omega
      calc pyRoundHE x = ⌊x + 1 / 2⌋ := h1
        _ ≤ ⌊x⌋ := h2
        _ = ⌊y⌋ := hfe
        _ ≤ pyRoundHE y := pyRoundHE_ge_floor y
    · unfold pyRoundHE
      rw [if_neg hx, if_neg hy]
      exact Int.floor_mono (by linarith)

theorem pyRound1_mono {x y : ℚ} (h : x ≤ y) : pyRound1 x ≤ pyRound1 y := by
  unfold pyRound1
  have h10 : (10 : ℚ) * x ≤ 10 * y := by linarith
  have hz := pyRoundHE_mono h10
  have hq : ((pyRoundHE (10 * x) : ℚ)) ≤ ((pyRoundHE (10 * y) : ℚ)) := by
    exact_mod_cast hz
  linarith

/-- Sorting after inserting `x` anywhere equals an ordered insert of
`x` into the sorted original. -/
theorem sortTS_append_cons (l₁ l₂ : List ℚ) (x : ℚ) :
    sortTS (l₁ ++ x :: l₂) = List.orderedInsert (· ≤ ·) x (sortTS (l₁ ++ l₂)) := by
  have h1 : sortTS (l₁ ++ x :: l₂) = sortTS (x :: (l₁ ++ l₂)) := by
    unfold sortTS
    exact List.eq_of_perm_of_sorted (r := (· ≤ ·))
      (((List.perm_insertionSort _ _).trans List.perm_middle).trans
        (List.perm_insertionSort _ _).symm)
      (List.sorted_insertionSort _ _)
      (List.sorted_insertionSort _ _)
  rw [h1]
  rfl

/-- C4: the engineering-hours estimate is monotone non-decreasing in
the commit set: inserting one additional timestamp anywhere into a
timestamp sequence never decreases the (rounded) estimate.  The first
conjunct grounds `estimateOfList` as exactly what the analyzer computes
from the raw git output. -/
theorem estimated_hours_monotone :
    (∀ (f : PyStr → Option PyDT) (raw : PyStr),
      estimated_hours f raw = estimateOfList (parseTimestamps f raw)) ∧
    ∀ (l₁ l₂ : List ℚ) (x : ℚ),
      estimateOfList (l₁ ++ l₂) ≤ estimateOfList (l₁ ++ x :: l₂) := by
  refine ⟨fun f raw => rfl, fun l₁ l₂ x => ?_⟩
  unfold estimateOfList
  rw [sortTS_append_cons]
  exact pyRound1_mono
    (rawEstimate_orderedInsert x _ (List.sorted_insertionSort _ _))

/-! ### Churn parser (`get_stats`, lines 126–143)

The input is the text of `git log --all --shortstat --format=`.  The
`try` body of lines 136–142 mutates the outer accumulators
`lines_added`/`lines_deleted` segment by segment; an exception from
`int(...)` aborts the rest of the line but keeps the increments already
applied, and the bare `except: pass` of line 143 resumes with the next
line.  We model the `try` body in `Except`, the error value carrying
the accumulator state at the moment the exception is raised. -/

/-- The inner loop of lines 138–142 over the comma-segments `pts` of
one line.  Per segment: if it contains `"insertion"`, add the leading
integer of the stripped segment to the first total; if it contains
`"deletion"`, add the same leading integer to the second; a
`ValueError` from `int(...)` is `Except.error` carrying the state the
accumulators already reached. -/
def churnSegs : List PyStr → ℤ × ℤ → Except (ℤ × ℤ) (ℤ × ℤ)
  | [], acc => .ok acc
  | p :: t, acc =>
    let ins := pyContains p "insertion".toList
    let del := pyContains p "deletion".toList
    if ins || del then
      match pyInt ((pySplit ' ' (pyStrip p)).headD []) with
      | none => .error acc
      | some n =>
        churnSegs t (acc.1 + (if ins then n else 0), acc.2 + (if del then n else 0))
    else churnSegs t acc

/-- One accepted line (lines 135–143): lines lacking the literal
marker `"insertions(+)"` are ignored; otherwise the segment loop runs
and the enclosing `except: pass` turns an exception into the partial
totals. -/
def churnLine (acc : ℤ × ℤ) (line : PyStr) : ℤ × ℤ :=
  if pyContains line "insertions(+)".toList then
    match churnSegs (pySplit ',' line) acc with
    | .ok a => a
    | .error a => a
  else acc

/-- One iteration of the outer loop (lines 130–132): strip the line
and skip it when blank. -/
def churnStep (acc : ℤ × ℤ) (l : PyStr) : ℤ × ℤ :=
  let line := pyStrip l
  if line = [] then acc else churnLine acc line

/-- `(lines_added, lines_deleted)` after the whole churn loop; the
`if shortstat_raw:` guard keeps `(0, 0)` for an empty result. -/
def churn_totals (raw : PyStr) : ℤ × ℤ :=
  if raw = [] then (0, 0)
  else (pyLines raw).foldl churnStep (0, 0)

/-- The contribution of a single line starting from zeroed totals. -/
def lineChurn (l : PyStr) : ℤ × ℤ :=
  churnStep (0, 0) l

theorem churnSegs_shift (b : ℤ × ℤ) :
    ∀ (ps : List PyStr) (a : ℤ × ℤ),
      churnSegs ps (b.1 + a.1, b.2 + a.2) =
        match churnSegs ps a with
        | .ok v => .ok (b.1 + v.1, b.2 + v.2)
        | .error v => .error (b.1 + v.1, b.2 + v.2) := by
  intro ps
  induction ps with
  | nil => intro a; rfl
  | cons p t ih =>
    intro a
    simp only [churnSegs]
    split
    · cases hp : pyInt ((pySplit ' ' (pyStrip p)).headD []) with
      | none => rfl
      | some n =>
        simp only []
        rw [add_assoc, add_assoc]
        exact ih (a.1 + _, a.2 + _)
    · exact ih a

theorem churnLine_shift (acc : ℤ × ℤ) (line : PyStr) :
    churnLine acc line = (acc.1 + (churnLine (0, 0) line).1,
      acc.2 + (churnLine (0, 0) line).2) := by
  unfold churnLine
  split
  · have h := churnSegs_shift acc (pySplit ',' line) (0, 0)
    simp only [add_zero] at h
    rw [h]
    cases churnSegs (pySplit ',' line) (0, 0) <;> rfl
  · simp

theorem churnStep_shift (acc : ℤ × ℤ) (l : PyStr) :
    churnStep acc l = (acc.1 + (lineChurn l).1, acc.2 + (lineChurn l).2) := by
  unfold churnStep lineChurn churnStep
  dsimp only
  split
  · simp
  · rw [churnLine_shift]

/-- The segment loop never touches the deletions total when no
comma-segment mentions `"deletion"`, whether it finishes or raises. -/
theorem churnSegs_snd_preserved :
    ∀ (ps : List PyStr) (a : ℤ × ℤ),
      (∀ p ∈ ps, pyContains p "deletion".toList = false) →
      (match churnSegs ps a with
        | .ok v => v.2 = a.2
        | .error v => v.2 = a.2) := by
  intro ps
  induction ps with
  | nil => intro a _; rfl
  | cons p t ihp =>
    intro a hps
    have hp : pyContains p "deletion".toList = false :=
      hps p (List.mem_cons_self p t)
    have ht : ∀ q ∈ t, pyContains q "deletion".toList = false :=
      fun q hq => hps q (List.mem_cons_of_mem p hq)
    simp only [churnSegs]
    rw [hp]
    by_cases hins : pyContains p "insertion".toList = true
    · rw [hins]
      cases hi : pyInt ((pySplit ' ' (pyStrip p)).headD []) with
      | none => simp
      | some n =>
        have hrec := ihp (a.1 + n, a.2) ht
        simpa using hrec
    · rw [Bool.not_eq_true] at hins
      rw [hins]
      simpa using ihp a ht

theorem foldl_churnStep (ls : List PyStr) :
    ∀ acc : ℤ × ℤ,
      ls.foldl churnStep acc =
        (acc.1 + (ls.foldr (fun l a => ((lineChurn l).1 + a.1,
          (lineChurn l).2 + a.2)) (0, 0)).1,
         acc.2 + (ls.foldr (fun l a => ((lineChurn l).1 + a.1,
          (lineChurn l).2 + a.2)) (0, 0)).2) := by
  induction ls with
  | nil => intro acc; simp
  | cons l t ih =>
    intro acc
    rw [List.foldl_cons, ih (churnStep acc l), churnStep_shift]
    simp only [List.foldr, Prod.mk.injEq]
    exact ⟨by ring, by ring⟩

/-- C7: the churn parser never raises and is line-local.  First
conjunct: on a line bearing the `"insertions(+)"` marker, the `try`
body either succeeds with exactly the returned totals or raises with
exactly the returned totals — the exception is absorbed, never
propagated.  Second conjunct: the totals over any input are the sum of
the per-line contributions, so a line that fails to parse leaves every
other line's contribution intact.  Third conjunct: a line none of
whose comma-segments mentions `"deletion"` adds nothing to the
deletions total.  Fourth: a concrete three-line run whose middle line
raises mid-parse still accumulates both surrounding lines. -/
theorem churn_parser_never_raises :
    (∀ (acc : ℤ × ℤ) (line : PyStr),
      pyContains line "insertions(+)".toList = true →
      churnSegs (pySplit ',' line) acc = .ok (churnLine acc line) ∨
      churnSegs (pySplit ',' line) acc = .error (churnLine acc line)) ∧
    (∀ raw : PyStr, raw ≠ [] →
      churn_totals raw = (pyLines raw).foldr
        (fun l a => ((lineChurn l).1 + a.1, (lineChurn l).2 + a.2)) (0, 0)) ∧
    (∀ (acc : ℤ × ℤ) (line : PyStr),
      (∀ p ∈ pySplit ',' line, pyContains p "deletion".toList = false) →
      (churnLine acc line).2 = acc.2) ∧
    churn_totals ("2 files changed, 3 insertions(+)\ngarbage insertions(+) ,, more\n1 file changed, 2 insertions(+), 5 deletions(-)".toList)
      = (5, 5) := by
  refine ⟨?_, ?_, ?_, by decide⟩
  · intro acc line hm
    unfold churnLine
    rw [if_pos hm]
    cases churnSegs (pySplit ',' line) acc with
    | ok a => exact Or.inl rfl
    | error a => exact Or.inr rfl
  · intro raw hraw
    unfold churn_totals
    rw [if_neg hraw, foldl_churnStep]
    simp
  · intro acc line hdel
    unfold churnLine
    split
    · have hres := churnSegs_snd_preserved (pySplit ',' line) acc hdel
      cases hc : churnSegs (pySplit ',' line) acc with
      | ok v => rw [hc] at hres; exact hres
      | error v => rw [hc] at hres; exact hres
    · rfl

/-- Witness for C7: the marker conjunct at a parsing line, the
additivity conjunct at a one-line input, and the no-deletions conjunct
at a line with only an insertions clause. -/
theorem churn_parser_never_raises_witness :
    (churnSegs (pySplit ',' "3 insertions(+)".toList) (0, 0) =
        .ok (churnLine (0, 0) "3 insertions(+)".toList) ∨
      churnSegs (pySplit ',' "3 insertions(+)".toList) (0, 0) =
        .error (churnLine (0, 0) "3 insertions(+)".toList)) ∧
    churn_totals "7 insertions(+)".toList = (pyLines "7 insertions(+)".toList).foldr
      (fun l a => ((lineChurn l).1 + a.1, (lineChurn l).2 + a.2)) (0, 0) ∧
    (churnLine (0, 0) "3 insertions(+)".toList).2 = (0, 0).2 :=
  ⟨churn_parser_never_raises.1 (0, 0) _ (by decide),
   churn_parser_never_raises.2.1 _ (by decide),
   churn_parser_never_raises.2.2.1 (0, 0) _ (by decide)⟩

/-- C9: a shortstat line that has a deletions clause but lacks the
literal marker `"insertions(+)"` (a deletion-only commit summary)
changes neither total; concretely, the input
`"1 file changed, 2 deletions(-)"` yields totals `(0, 0)`. -/
theorem deletion_only_lines_ignored :
    (∀ (acc : ℤ × ℤ) (line : PyStr),
      pyContains line "deletion".toList = true →
      pyContains line "insertions(+)".toList = false →
      churnLine acc line = acc) ∧
    churn_totals "1 file changed, 2 deletions(-)".toList = (0, 0) := by
  refine ⟨?_, by decide⟩
  intro acc line _ hm
  unfold churnLine
  rw [hm]
  simp

/-- Witness for C9 at the deletion-only summary line. -/
theorem deletion_only_lines_ignored_witness :
    churnLine (3, 4) "1 file changed, 2 deletions(-)".toList = (3, 4) :=
  deletion_only_lines_ignored.1 (3, 4) _ (by decide) (by decide)

/-! ### Contributor aggregator (`get_stats`, lines 99–122, 257)

The input is the text of `git shortlog -sne --all`.  The avatar
resolver is an external collaborator modelled as a function
`av : PyStr → PyStr` of the email (legitimate because, within one run,
`_get_github_avatar` is deterministic per email — see the avatar cache
theorems below).  `int(parts[0].strip())` is not inside any `try`, so
a malformed count aborts `get_stats`: the parser returns `none` in
that case. -/

/-- One contributor record as appended at lines 117–122. -/
structure Contributor where
  name : PyStr
  email : PyStr
  commits : ℤ
  avatar : PyStr
deriving DecidableEq

/-- Lines 108–115: split the identity `name <email>` part.  When `'<'`
occurs, the name is the text before the first `'<'` (stripped) and the
email the text between the first `'<'` and the following `'>'`
(stripped); otherwise the whole string is the name and the email is
empty. -/
def mkContrib (av : PyStr → PyStr) (p1 : PyStr) (count : ℤ) : Contributor :=
  let name_email := pyStrip p1
  match pySplit '<' name_email with
  | n :: e :: _ =>
    { name := pyStrip n
      email := pyStrip ((pySplit '>' e).headD [])
      commits := count
      avatar := av (pyStrip ((pySplit '>' e).headD [])) }
  | _ => { name := name_email, email := [], commits := count, avatar := av [] }

/-- The loop of lines 102–122: strip each line, skip blanks, split on
tab, process only two-part lines; `none` models the uncaught
`ValueError` of `int(...)` on a malformed count. -/
def parseShortlogLines (av : PyStr → PyStr) : List PyStr → Option (List Contributor)
  | [] => some []
  | l :: ls =>
    let line := pyStrip l
    if line = [] then parseShortlogLines av ls
    else
      match pySplit '\t' line with
      | [p0, p1] =>
        match pyInt (pyStrip p0) with
        | none => none
        | some count =>
          match parseShortlogLines av ls with
          | none => none
          | some rest => some (mkContrib av p1 count :: rest)
      | _ => parseShortlogLines av ls

/-- `contributors` after lines 100–122 (`if shortlog:` keeps the empty
list when the query returned nothing). -/
def parseShortlog (av : PyStr → PyStr) (raw : PyStr) : Option (List Contributor) :=
  if raw = [] then some []
  else parseShortlogLines av (pyLines raw)

/-- The sort key order of line 257: `sorted(contributors, key=lambda
x: x['commits'], reverse=True)` puts `a` no later than `b` exactly when
`b.commits ≤ a.commits`. -/
def contribGE (a b : Contributor) : Prop :=
  b.commits ≤ a.commits

instance : DecidableRel contribGE := fun a b =>
  inferInstanceAs (Decidable (b.commits ≤ a.commits))

instance : IsTotal Contributor contribGE :=
  ⟨fun a b => le_total b.commits a.commits⟩

instance : IsTrans Contributor contribGE :=
  ⟨fun _ _ _ h1 h2 => le_trans h2 h1⟩

/-- Line 257.  Python's `sorted` is the stable sort by the key;
insertion sort with `contribGE` computes exactly that list (it is
stable and sorts by the same key). -/
def sortContributors (cs : List Contributor) : List Contributor :=
  cs.insertionSort contribGE

/-! #### Character-provenance lemmas for the sign-free count argument -/

theorem mem_pyStrip {c : Char} {s : PyStr} (h : c ∈ pyStrip s) : c ∈ s := by
  unfold pyStrip at h
  rw [List.mem_reverse] at h
  have h2 : c ∈ (s.dropWhile pyIsSpace).reverse :=
    (List.dropWhile_sublist _).subset h
  rw [List.mem_reverse] at h2
  exact (List.dropWhile_sublist _).subset h2

theorem mem_pySplit {sep : Char} :
    ∀ {l : List Char} {p : PyStr}, p ∈ pySplit sep l → ∀ {c : Char}, c ∈ p → c ∈ l := by
  intro l
  induction l with
  | nil =>
    intro p hp c hc
    simp [pySplit] at hp
    subst hp
    exact absurd hc (List.not_mem_nil c)
  | cons ch t ih =>
    intro p hp c hc
    rw [pySplit] at hp
    cases hsp : pySplit sep t with
    | nil =>
      rw [hsp] at hp
      simp at hp
      subst hp
      simp at hc
      simp [hc]
    | cons h hs =>
      rw [hsp] at hp
      dsimp only at hp
      by_cases hch : ch = sep
      · rw [if_pos hch] at hp
        rcases List.mem_cons.mp hp with rfl | hp'
        · exact absurd hc (List.not_mem_nil c)
        · have : p ∈ pySplit sep t := hsp ▸ hp'
          exact List.mem_cons_of_mem ch (ih this hc)
      · rw [if_neg hch] at hp
        rcases List.mem_cons.mp hp with rfl | hp'
        · rcases List.mem_cons.mp hc with rfl | hc'
          · exact List.mem_cons_self c t
          · have : h ∈ pySplit sep t := hsp ▸ List.mem_cons_self h hs
            exact List.mem_cons_of_mem ch (ih this hc')
        · have : p ∈ pySplit sep t := hsp ▸ List.mem_cons_of_mem h hp'
          exact List.mem_cons_of_mem ch (ih this hc)

theorem digitsFoldl_none (t : PyStr) :
    t.foldl
      (fun acc c =>
        match acc with
        | none => none
        | some v => if c.isDigit then some (10 * v + ((c.toNat - 48 : ℕ) : ℤ)) else none)
      none = none := by
  induction t with
  | nil => rfl
  | cons c t ih => simpa using ih

theorem digitsVal_nonneg_aux :
    ∀ (l : PyStr) (v : ℤ), 0 ≤ v →
      ∀ {n : ℤ},
        l.foldl
          (fun acc c =>
            match acc with
            | none => none
            | some v => if c.isDigit then some (10 * v + ((c.toNat - 48 : ℕ) : ℤ)) else none)
          (some v) = some n → 0 ≤ n := by
  intro l
  induction l with
  | nil =>
    intro v hv n h
    simp at h
    omega
  | cons c t ih =>
    intro v hv n h
    rw [List.foldl_cons] at h
    by_cases hc : c.isDigit
    · simp only [hc, if_true] at h
      have hd : (0 : ℤ) ≤ 10 * v + ((c.toNat - 48 : ℕ) : ℤ) := by positivity
      exact ih _ hd h
    · dsimp only at h
      rw [if_neg hc, digitsFoldl_none] at h
      exact absurd h (by simp)

theorem digitsVal_nonneg {l : PyStr} {n : ℤ} (h : digitsVal l = some n) : 0 ≤ n := by
  unfold digitsVal at h
  split at h
  · exact absurd h (by simp)
  · exact digitsVal_nonneg_aux l 0 le_rfl h

theorem pyInt_nonneg {s : PyStr} (hs : ('-' : Char) ∉ s) {n : ℤ}
    (h : pyInt s = some n) : 0 ≤ n := by
  have hstrip : ('-' : Char) ∉ pyStrip s := fun hm => hs (mem_pyStrip hm)
  unfold pyInt at h
  split at h
  · rename_i ds heq
    exact absurd (heq ▸ List.mem_cons_self '-' ds) hstrip
  · exact digitsVal_nonneg h
  · exact digitsVal_nonneg h

theorem mkContrib_commits (av : PyStr → PyStr) (p1 : PyStr) (count : ℤ) :
    (mkContrib av p1 count).commits = count := by
  unfold mkContrib
  dsimp only
  split <;> rfl

/-- When every line's tab-separated count field is free of `'-'` (as
`git shortlog -sne` guarantees), every parsed commit count is
non-negative. -/
theorem parseShortlogLines_nonneg (av : PyStr → PyStr) :
    ∀ (ls : List PyStr) (cs : List Contributor),
      (∀ l ∈ ls, ('-' : Char) ∉ pyStrip ((pySplit '\t' (pyStrip l)).headD [])) →
      parseShortlogLines av ls = some cs →
      ∀ x ∈ cs, 0 ≤ x.commits := by
  intro ls
  induction ls with
  | nil =>
    intro cs _ h x hx
    rw [parseShortlogLines] at h
    simp at h
    subst h
    exact absurd hx (List.not_mem_nil x)
  | cons l t ih =>
    intro cs hml h x hx
    have hl := hml l (List.mem_cons_self l t)
    have hmt : ∀ q ∈ t, ('-' : Char) ∉ pyStrip ((pySplit '\t' (pyStrip q)).headD []) :=
      fun q hq => hml q (List.mem_cons_of_mem l hq)
    rw [parseShortlogLines] at h
    by_cases hb : pyStrip l = []
    · rw [if_pos hb] at h
      exact ih cs hmt h x hx
    · rw [if_neg hb] at h
      split at h
      · rename_i p0 p1 heq
        split at h
        · exact absurd h (by simp)
        · rename_i count hcount
          split at h
          · exact absurd h (by simp)
          · rename_i rest hrest
            have hcs : mkContrib av p1 count :: rest = cs := by
              injection h
            subst hcs
            rcases List.mem_cons.mp hx with rfl | hxr
            · rw [mkContrib_commits]
              have hp0 : ('-' : Char) ∉ pyStrip p0 := by
                rw [heq] at hl
                simpa using hl
              exact pyInt_nonneg hp0 hcount
            · exact ih rest hmt hrest x hxr
      · exact ih cs hmt h x hx

/-- C6: the contributor list of the assembled result is the stable
descending sort by commit count of the contributors in the
backend-reported order: it is pairwise descending, a permutation of the
parsed list, any equal-count subsequence survives in its original
order, and (whenever the backend's count fields carry no sign, as
`git shortlog` guarantees) every commit count is non-negative; for the
shortlog input `"3\tAlice <a@x.com>\n5\tBob <b@x.com>"` the parsed list
is Alice then Bob and the sorted list is Bob (5) then Alice (3). -/
theorem contributors_ranked_descending :
    (∀ (av : PyStr → PyStr) (raw : PyStr) (cs : List Contributor),
      parseShortlog av raw = some cs →
        (sortContributors cs).Sorted contribGE ∧
        (sortContributors cs).Perm cs ∧
        (∀ c : List Contributor, c.Sublist cs →
          c.Pairwise (fun a b => a.commits = b.commits) →
          c.Sublist (sortContributors cs)) ∧
        ((∀ l ∈ pyLines raw,
            ('-' : Char) ∉ pyStrip ((pySplit '\t' (pyStrip l)).headD [])) →
          ∀ c ∈ sortContributors cs, 0 ≤ c.commits)) ∧
    ∀ av : PyStr → PyStr,
      parseShortlog av "3\tAlice <a@x.com>\n5\tBob <b@x.com>".toList =
        some [⟨"Alice".toList, "a@x.com".toList, 3, av "a@x.com".toList⟩,
              ⟨"Bob".toList, "b@x.com".toList, 5, av "b@x.com".toList⟩] ∧
      sortContributors
          [⟨"Alice".toList, "a@x.com".toList, 3, av "a@x.com".toList⟩,
            ⟨"Bob".toList, "b@x.com".toList, 5, av "b@x.com".toList⟩] =
        [⟨"Bob".toList, "b@x.com".toList, 5, av "b@x.com".toList⟩,
          ⟨"Alice".toList, "a@x.com".toList, 3, av "a@x.com".toList⟩] := by
  constructor
  · intro av raw cs hparse
    refine ⟨List.sorted_insertionSort contribGE cs,
      List.perm_insertionSort contribGE cs, ?_, ?_⟩
    · intro c hsub hpw
      exact List.sublist_insertionSort
        (hpw.imp fun hab => le_of_eq hab.symm) hsub
    · intro hm x hx
      have hx' : x ∈ cs :=
        (List.perm_insertionSort contribGE cs).subset hx
      unfold parseShortlog at hparse
      by_cases hraw : raw = []
      · rw [if_pos hraw] at hparse
        simp at hparse
        subst hparse
        exact absurd hx' (List.not_mem_nil x)
      · rw [if_neg hraw] at hparse
        exact parseShortlogLines_nonneg av (pyLines raw) cs hm hparse x hx'
  · intro av
    exact ⟨rfl, rfl⟩

/-- Witness for C6 at the spec's concrete shortlog input, with the
avatar resolver returning the empty reference. -/
theorem contributors_ranked_descending_witness :
    (sortContributors
        [⟨"Alice".toList, "a@x.com".toList, 3, []⟩,
          ⟨"Bob".toList, "b@x.com".toList, 5, []⟩]).Sorted contribGE ∧
    List.Sublist [⟨"Alice".toList, "a@x.com".toList, 3, []⟩]
      (sortContributors
        [⟨"Alice".toList, "a@x.com".toList, 3, []⟩,
          ⟨"Bob".toList, "b@x.com".toList, 5, []⟩]) ∧
    ∀ c ∈ sortContributors
        [⟨"Alice".toList, "a@x.com".toList, 3, []⟩,
          ⟨"Bob".toList, "b@x.com".toList, 5, []⟩], 0 ≤ c.commits := by
  have h := contributors_ranked_descending.1 (fun _ => [])
    "3\tAlice <a@x.com>\n5\tBob <b@x.com>".toList
    [⟨"Alice".toList, "a@x.com".toList, 3, []⟩,
      ⟨"Bob".toList, "b@x.com".toList, 5, []⟩] (by decide)
  exact ⟨h.1,
    h.2.2.1 [⟨"Alice".toList, "a@x.com".toList, 3, []⟩]
      ((List.nil_sublist [⟨"Bob".toList, "b@x.com".toList, 5, []⟩]).cons₂ _)
      (List.pairwise_singleton _ _),
    h.2.2.2 (by decide)⟩

/-! ### Avatar resolver (`_get_github_avatar`, lines 33–56)

External collaborators: `hashlib.md5(...).hexdigest()` and the GitHub
search request.  `Except.error` on the lookup models any exception the
`try` of lines 41–53 can see (network failure, timeout, rate limit,
JSON decode error); a successful response carries
`data.get('total_count', 0)` and the `avatar_url` of each item of
`data['items']`. -/

/-- The fields of the search response the code reads. -/
structure GHResponse where
  total_count : ℤ
  items : List PyStr

/-- The external world `_get_github_avatar` interacts with. -/
structure AvatarWorld where
  md5hex : PyStr → PyStr
  ghLookup : PyStr → Except Unit GHResponse

/-- Lines 38–39: the deterministic Gravatar identicon fallback,
derived from the MD5 hex digest of the lowercased email. -/
def gravatarUrl (w : AvatarWorld) (email : PyStr) : PyStr :=
  "https://www.gravatar.com/avatar/".toList ++ w.md5hex (pyLower email)
    ++ "?d=identicon&s=150".toList

/-- `email in self.github_avatar_cache` / `cache[email]`, the cache
being a Python dict modelled as an association list in insertion
order. -/
def lookupCache : List (PyStr × PyStr) → PyStr → Option PyStr
  | [], _ => none
  | (k, v) :: t, email => if k = email then some v else lookupCache t email

/-- `_get_github_avatar`: returns the avatar reference, the updated
cache, and whether an external lookup was performed.  A cache hit
returns immediately (lines 34–35); otherwise the `try` body either
replaces the fallback with the first item's `avatar_url` (when
`total_count > 0` and the item exists) or leaves the fallback in
place, and the outcome — success or fallback — is cached (line 55). -/
def get_github_avatar (w : AvatarWorld) (cache : List (PyStr × PyStr))
    (email : PyStr) : PyStr × List (PyStr × PyStr) × Bool :=
  match lookupCache cache email with
  | some v => (v, cache, false)
  | none =>
    let fallback := gravatarUrl w email
    let avatar_url :=
      match w.ghLookup email with
      | .error _ => fallback
      | .ok d =>
        if 0 < d.total_count then
          match d.items with
          | [] => fallback
          | u :: _ => u
        else fallback
    (avatar_url, cache ++ [(email, avatar_url)], true)

theorem lookupCache_append_self {cache : List (PyStr × PyStr)} {email u : PyStr}
    (h : lookupCache cache email = none) :
    lookupCache (cache ++ [(email, u)]) email = some u := by
  induction cache with
  | nil => simp [lookupCache]
  | cons p t ih =>
    obtain ⟨k, v⟩ := p
    rw [lookupCache] at h
    by_cases hk : k = email
    · rw [if_pos hk] at h
      exact absurd h (by simp)
    · rw [if_neg hk] at h
      rw [List.cons_append, lookupCache, if_neg hk]
      exact ih h

/-- C8: the avatar resolver never raises — on a cache miss whose
external lookup fails, or matches nothing, it returns the
hash-derived identicon fallback of the lowercased email; a repeated
call for the same email returns the identical reference from the
unchanged cache without any external lookup; and a single call
performs an external lookup exactly on a cache miss. -/
theorem avatar_fallback_and_cache :
    (∀ (w : AvatarWorld) (cache : List (PyStr × PyStr)) (email : PyStr),
      lookupCache cache email = none →
      w.ghLookup email = .error () →
      (get_github_avatar w cache email).1 = gravatarUrl w email) ∧
    (∀ (w : AvatarWorld) (cache : List (PyStr × PyStr)) (email : PyStr)
        (d : GHResponse),
      lookupCache cache email = none →
      w.ghLookup email = .ok d → d.total_count ≤ 0 →
      (get_github_avatar w cache email).1 = gravatarUrl w email) ∧
    (∀ (w : AvatarWorld) (cache : List (PyStr × PyStr)) (email : PyStr),
      get_github_avatar w (get_github_avatar w cache email).2.1 email =
        ((get_github_avatar w cache email).1,
          (get_github_avatar w cache email).2.1, false)) ∧
    (∀ (w : AvatarWorld) (cache : List (PyStr × PyStr)) (email : PyStr),
      (lookupCache cache email = none →
        (get_github_avatar w cache email).2.2 = true) ∧
      ∀ v, lookupCache cache email = some v →
        get_github_avatar w cache email = (v, cache, false)) := by
  refine ⟨?_, ?_, ?_, ?_⟩
  · intro w cache email hmiss herr
    unfold get_github_avatar
    rw [hmiss, herr]
  · intro w cache email d hmiss hok htc
    unfold get_github_avatar
    rw [hmiss, hok]
    dsimp only
    rw [if_neg (not_lt.mpr htc)]
  · intro w cache email
    cases hc : lookupCache cache email with
    | some v =>
      have h1 : get_github_avatar w cache email = (v, cache, false) := by
        unfold get_github_avatar
        rw [hc]
      rw [h1]
      unfold get_github_avatar
      rw [hc]
    | none =>
      have hfst : ∃ u, get_github_avatar w cache email =
          (u, cache ++ [(email, u)], true) := by
        unfold get_github_avatar
        rw [hc]
        exact ⟨_, rfl⟩
      obtain ⟨u, hu⟩ := hfst
      rw [hu]
      show get_github_avatar w (cache ++ [(email, u)]) email =
        (u, cache ++ [(email, u)], false)
      unfold get_github_avatar
      rw [lookupCache_append_self hc]
  · intro w cache email
    constructor
    · intro hmiss
      unfold get_github_avatar
      rw [hmiss]
    · intro v hhit
      unfold get_github_avatar
      rw [hhit]

/-- A world whose lookup always raises. -/
def avatarWorldFail : AvatarWorld :=
  ⟨fun s => s, fun _ => .error ()⟩

/-- A world whose lookup succeeds with zero matches. -/
def avatarWorldEmpty : AvatarWorld :=
  ⟨fun s => s, fun _ => .ok ⟨0, []⟩⟩

/-- Witness for C8: a failing lookup and a zero-match lookup both
yield the fallback on an empty cache, and a fresh lookup happens
exactly on the miss. -/
theorem avatar_fallback_and_cache_witness :
    (get_github_avatar avatarWorldFail [] "A@X".toList).1 =
      gravatarUrl avatarWorldFail "A@X".toList ∧
    (get_github_avatar avatarWorldEmpty [] "A@X".toList).1 =
      gravatarUrl avatarWorldEmpty "A@X".toList ∧
    (get_github_avatar avatarWorldFail [] "A@X".toList).2.2 = true ∧
    get_github_avatar avatarWorldFail
        [("A@X".toList, "u".toList)] "A@X".toList =
      ("u".toList, [("A@X".toList, "u".toList)], false) :=
  ⟨avatar_fallback_and_cache.1 avatarWorldFail [] _ rfl rfl,
   avatar_fallback_and_cache.2.1 avatarWorldEmpty [] _ ⟨0, []⟩ rfl rfl (by decide),
   (avatar_fallback_and_cache.2.2.2 avatarWorldFail [] _).1 rfl,
   (avatar_fallback_and_cache.2.2.2 avatarWorldFail
     [("A@X".toList, "u".toList)] _).2 "u".toList (by decide)⟩

/-! ### Language classifier (`get_stats`, lines 145–198)

The working tree is modelled as a mutual inductive (entries are files
with a name, a byte size and a readability flag — `readable = false`
meaning `os.path.getsize` raises and the nominal weight 1 is used — or
named directories).  `os.walk` visits a directory's files, then
recurses into the subdirectories that survive the
`dirs[:] = [d for d in dirs if d not in IGNORE_DIRS]` pruning. -/

mutual
inductive FsEntry where
  | file : PyStr → ℕ → Bool → FsEntry
  | dir : PyStr → FsEntryList → FsEntry
deriving DecidableEq
inductive FsEntryList where
  | nil : FsEntryList
  | cons : FsEntry → FsEntryList → FsEntryList
deriving DecidableEq
end

/-- `LANG_MAP` of lines 150–160. -/
def langMap : List (PyStr × PyStr) :=
  [ (".py".toList, "Python".toList), (".js".toList, "JavaScript".toList),
    (".ts".toList, "TypeScript".toList), (".tsx".toList, "React/TS".toList),
    (".jsx".toList, "React/JS".toList), (".html".toList, "HTML".toList),
    (".css".toList, "CSS".toList), (".go".toList, "Go".toList),
    (".rs".toList, "Rust".toList), (".cpp".toList, "C++".toList),
    (".c".toList, "C".toList), (".h".toList, "C/C++".toList),
    (".java".toList, "Java".toList), (".rb".toList, "Ruby".toList),
    (".php".toList, "PHP".toList), (".cs".toList, "C#".toList),
    (".swift".toList, "Swift".toList), (".kt".toList, "Kotlin".toList),
    (".m".toList, "Obj-C".toList), (".sql".toList, "SQL".toList),
    (".sh".toList, "Shell".toList), (".bat".toList, "Batch".toList),
    (".ps1".toList, "PowerShell".toList), (".dart".toList, "Dart".toList),
    (".lua".toList, "Lua".toList), (".scala".toList, "Scala".toList),
    (".pl".toList, "Perl".toList), (".r".toList, "R".toList),
    (".jl".toList, "Julia".toList), (".ex".toList, "Elixir".toList),
    (".exs".toList, "Elixir".toList), (".yaml".toList, "YAML".toList),
    (".yml".toList, "YAML".toList), (".json".toList, "JSON".toList),
    (".md".toList, "Markdown".toList), (".dockerfile".toList, "Docker".toList),
    ("dockerfile".toList, "Docker".toList), (".proto".toList, "Protobuf".toList) ]

/-- `IGNORE_DIRS` of lines 163–167. -/
def ignoreDirs : List PyStr :=
  [ ".git".toList, "node_modules".toList, "venv".toList, ".venv".toList,
    "env".toList, "__pycache__".toList, "build".toList, "dist".toList,
    "target".toList, ".next".toList, "out".toList, ".svelte-kit".toList,
    "vendor".toList, "bin".toList, "obj".toList, ".vs".toList,
    ".idea".toList, ".vscode".toList ]

/-- `IGNORE_FILES` of lines 169–172. -/
def ignoreFiles : List PyStr :=
  [ "package-lock.json".toList, "yarn.lock".toList, "pnpm-lock.yaml".toList,
    "composer.lock".toList, "poetry.lock".toList, "gemfile.lock".toList,
    "cargo.lock".toList, "mix.lock".toList ]

/-- `os.path.splitext(f)[1]` for a bare file name: the suffix from the
last dot, provided a non-dot character precedes it (leading dots never
start an extension). -/
def pySplitextExt (f : PyStr) : PyStr :=
  let base := f.dropWhile (· = '.')
  if base.contains '.' then
    '.' :: (f.reverse.takeWhile (· ≠ '.')).reverse
  else []

/-- `dict.get` on a string-keyed map. -/
def lookupStr : List (PyStr × PyStr) → PyStr → Option PyStr
  | [], _ => none
  | (k, v) :: t, key => if k = key then some v else lookupStr t key

/-- Line 187: `LANG_MAP.get(ext) or LANG_MAP.get(f.lower())` (all map
values are nonempty, hence truthy). -/
def langOf (f : PyStr) : Option PyStr :=
  match lookupStr langMap (pyLower (pySplitextExt f)) with
  | some lang => some lang
  | none => lookupStr langMap (pyLower f)

/-- Lines 180–196 for a single directory entry of name `name`: skip
exact members of `IGNORE_FILES`, classify the rest, and weight by byte
size, falling back to 1 when the size cannot be read. -/
def tallyFile (acc : List (PyStr × ℕ)) (name : PyStr) (size : ℕ)
    (readable : Bool) : List (PyStr × ℕ) :=
  if name ∈ ignoreFiles then acc
  else
    match langOf name with
    | none => acc
    | some lang => bumpBy lang (if readable then size else 1) acc

mutual
def tallyFiles (acc : List (PyStr × ℕ)) : FsEntryList → List (PyStr × ℕ)
  | .nil => acc
  | .cons (.file n s r) t => tallyFiles (tallyFile acc n s r) t
  | .cons (.dir _ _) t => tallyFiles acc t
def tallyDirs (acc : List (PyStr × ℕ)) : FsEntryList → List (PyStr × ℕ)
  | .nil => acc
  | .cons (.file _ _ _) t => tallyDirs acc t
  | .cons (.dir n es) t =>
    tallyDirs (if n ∈ ignoreDirs then acc
      else tallyDirs (tallyFiles acc es) es) t
end

/-- `os.walk` top-down over one directory: the `for f in files` loop
over its file entries (`tallyFiles`), then the descent into the
subdirectories that survive the pruning of line 177 (`tallyDirs`, whose
`dir` case again walks files first). -/
def tallyWalk (acc : List (PyStr × ℕ)) (es : FsEntryList) : List (PyStr × ℕ) :=
  tallyDirs (tallyFiles acc es) es

/-- The `languages` counter after the walk over the repository's
entries. -/
def languagesOf (root : FsEntryList) : List (PyStr × ℕ) :=
  tallyWalk [] root

mutual
def entryAllLock : FsEntry → Bool
  | .file n _ _ => decide (pyLower n ∈ ignoreFiles)
  | .dir _ es => entriesAllLock es
def entriesAllLock : FsEntryList → Bool
  | .nil => true
  | .cons e t => entryAllLock e && entriesAllLock t
end

/-- Removal of the files whose exact on-disk name is in
`IGNORE_FILES` (the files the walk actually skips). -/
def removeLocks : FsEntryList → FsEntryList
  | .nil => .nil
  | .cons (.file n s r) t =>
    if n ∈ ignoreFiles then removeLocks t
    else .cons (.file n s r) (removeLocks t)
  | .cons (.dir n es) t => .cons (.dir n (removeLocks es)) (removeLocks t)

/-- A tree holding a single readable 100-byte file named
`Package-lock.json` — lowercase `package-lock.json`, a member of the
exclusion set. -/
def lockCaseTree : FsEntryList :=
  .cons (.file "Package-lock.json".toList 100 true) .nil

/-- Counterexample to C3 as stated: a tree all of whose files have a
lowercased name in the lock-file exclusion set would have to produce
an empty tally if such files were "skipped regardless of the letter
case the filename has on disk", yet `Package-lock.json` is tallied. -/
theorem lock_file_case_counterexample :
    ¬ ∀ t : FsEntryList, entriesAllLock t = true → languagesOf t = [] := by
  intro h
  have h0 := h lockCaseTree (by decide)
  exact absurd h0 (by decide)

theorem tallyFiles_removeLocks (es : FsEntryList) :
    ∀ acc, tallyFiles acc (removeLocks es) = tallyFiles acc es := by
  cases es with
  | nil => intro acc; rfl
  | cons e t =>
    cases e with
    | file n s r =>
      intro acc
      rw [removeLocks]
      by_cases hn : n ∈ ignoreFiles
      · rw [if_pos hn, tallyFiles, show tallyFile acc n s r = acc
          from if_pos hn]
        exact tallyFiles_removeLocks t acc
      · rw [if_neg hn, tallyFiles, tallyFiles]
        exact tallyFiles_removeLocks t (tallyFile acc n s r)
    | dir n es' =>
      intro acc
      rw [removeLocks, tallyFiles, tallyFiles]
      exact tallyFiles_removeLocks t acc

theorem tallyDirs_removeLocks (es : FsEntryList) :
    ∀ acc, tallyDirs acc (removeLocks es) = tallyDirs acc es := by
  cases es with
  | nil => intro acc; rfl
  | cons e t =>
    cases e with
    | file n s r =>
      intro acc
      rw [removeLocks]
      by_cases hn : n ∈ ignoreFiles
      · rw [if_pos hn, tallyDirs]
        exact tallyDirs_removeLocks t acc
      · rw [if_neg hn, tallyDirs, tallyDirs]
        exact tallyDirs_removeLocks t acc
    | dir n es' =>
      intro acc
      rw [removeLocks, tallyDirs, tallyDirs, tallyFiles_removeLocks es',
        tallyDirs_removeLocks es']
      exact tallyDirs_removeLocks t _

theorem tallyWalk_removeLocks (es : FsEntryList) (acc : List (PyStr × ℕ)) :
    tallyWalk acc (removeLocks es) = tallyWalk acc es := by
  rw [tallyWalk, tallyWalk, tallyFiles_removeLocks, tallyDirs_removeLocks]

/-- C3 (amended): a file whose exact on-disk name is in the lock-file
exclusion set is skipped and contributes nothing — deleting all such
files from the tree leaves every tally unchanged — but the match is
case sensitive: a lock file whose on-disk name differs in case is not
skipped, and `Package-lock.json` is tallied as 100 bytes of JSON. -/
theorem lock_files_exact_name_skipped :
    (∀ (acc : List (PyStr × ℕ)) (name : PyStr) (size : ℕ) (r : Bool),
      name ∈ ignoreFiles → tallyFile acc name size r = acc) ∧
    (∀ (es : FsEntryList) (acc : List (PyStr × ℕ)),
      tallyWalk acc (removeLocks es) = tallyWalk acc es) ∧
    languagesOf lockCaseTree = [ ("JSON".toList, 100) ] := by
  refine ⟨?_, tallyWalk_removeLocks, by decide⟩
  intro acc name size r hn
  unfold tallyFile
  rw [if_pos hn]

/-- Witness for C3's amended claim at a concrete lock file. -/
theorem lock_files_exact_name_skipped_witness :
    tallyFile [] "yarn.lock".toList 5 true = [] :=
  lock_files_exact_name_skipped.1 [] _ 5 true (by decide)

/-! ### Repository discovery (`scan_for_repos`, lines 260–274)

`os.walk` over an abstract directory tree (the same `FsEntryList`
type).  The depth of a visited directory is computed by the code as
`dirpath.replace(root_dir, '').count(os.sep)`: `str.replace` deletes
every non-overlapping occurrence of the root path, not merely the
leading one. -/

/-- Python `str.replace(pat, rep)` for a nonempty `pat`: replace every
non-overlapping occurrence left to right.  The fuel (instantiated with
the string length, which bounds the number of steps) makes the
recursion structural. -/
def replAll (pat rep : PyStr) : ℕ → PyStr → PyStr
  | _, [] => []
  | 0, s => s
  | fuel + 1, c :: rest =>
    if pat.isPrefixOf (c :: rest) then
      rep ++ replAll pat rep fuel ((c :: rest).drop pat.length)
    else c :: replAll pat rep fuel rest

/-- `s.replace(pat, rep)`. -/
def pyReplace (s pat rep : PyStr) : PyStr :=
  replAll pat rep s.length s

/-- The computed depth of line 270:
`dirpath.replace(root_dir, '').count(os.sep)` with `os.sep = '/'`. -/
def scanDepth (rootPath dirpath : PyStr) : ℕ :=
  (pyReplace dirpath rootPath []).count '/'

/-- The `dirnames` of an `os.walk` triple: the subdirectories, in
order, paired with their entries. -/
def dirNames : FsEntryList → List (PyStr × FsEntryList)
  | .nil => []
  | .cons (.file _ _ _) t => dirNames t
  | .cons (.dir n es) t => (n, es) :: dirNames t

/-- `dirnames.remove('.git')` (line 268): delete the first occurrence. -/
def removeGit : List (PyStr × FsEntryList) → List (PyStr × FsEntryList)
  | [] => []
  | (n, es) :: t => if n = ".git".toList then t else (n, es) :: removeGit t

/-- The walk of lines 265–272, one call per visited directory: append
`dirpath` when `'.git'` is among the subdirectory names and prune that
metadata directory from the descent; then clear the remaining
subdirectory list whenever the computed depth reaches `max_depth`.
The fuel is structural and, instantiated above any possible tree
height, never runs out. -/
def scanWalk (maxDepth : ℕ) (rootPath : PyStr) :
    ℕ → PyStr → FsEntryList → List PyStr
  | 0, _, _ => []
  | fuel + 1, path, es =>
    let dirs := dirNames es
    let hasGit := dirs.any fun p => p.1 = ".git".toList
    let repos := if hasGit then [path] else []
    let dirs' := if hasGit then removeGit dirs else dirs
    let children := if maxDepth ≤ scanDepth rootPath path then [] else dirs'
    repos ++ children.foldr
      (fun p acc =>
        scanWalk maxDepth rootPath fuel (path ++ '/' :: p.1) p.2 ++ acc) []

mutual
def entryHeight : FsEntry → ℕ
  | .file _ _ _ => 0
  | .dir _ es => entriesHeight es + 1
def entriesHeight : FsEntryList → ℕ
  | .nil => 0
  | .cons e t => max (entryHeight e) (entriesHeight t)
end

/-- `GitAnalyzer.scan_for_repos(root_dir, max_depth)` over the tree of
entries found at the (absolute) root path. -/
def scan_for_repos (maxDepth : ℕ) (rootPath : PyStr) (root : FsEntryList) :
    List PyStr :=
  scanWalk maxDepth rootPath (entriesHeight root + 1) rootPath root

/-- A tree whose only repository sits at depth 5 below the root: the
chain `t/t/t/t/r` with `r` containing a `.git` directory, under a root
whose absolute path is `/t`. -/
def deepTree : FsEntryList :=
  .cons (.dir "t".toList
    (.cons (.dir "t".toList
      (.cons (.dir "t".toList
        (.cons (.dir "t".toList
          (.cons (.dir "r".toList
            (.cons (.dir ".git".toList .nil) .nil)) .nil)) .nil)) .nil)) .nil)) .nil

/-- C5 fails on the code: with depth limit 3 and a repository only at
depth 5, the returned list is not empty.  `str.replace` deletes every
occurrence of the root path `/t`, so each `/t/t/.../t` dirpath gets
computed depth 0 and the walk descends past the limit, collecting the
depth-5 repository `/t/t/t/t/t/r`. -/
theorem scan_for_repos_depth_bug :
    scan_for_repos 3 "/t".toList deepTree = [ "/t/t/t/t/t/r".toList ] := by
  decide

